import Mathlib

/-!
Verification of deepcell-tracking `utils.py` (trk/trks container codec,
lineage validation and relabeling) against its natural-language
specification.  The Python data model is shallowly embedded: label
volumes become `List (List (List Int))`, lineage dictionaries become
insertion-ordered association lists with integer keys, JSON payloads
become an inductive `Json` value type, and fallible Python code returns
`Option`/`Except`.
-/

namespace DeepcellTracking

/-! ### Definitions: the shallow embedding of `utils.py` -/

/-- Cell record of a lineage dictionary: `{label, parent, daughters, frames}`. -/
structure CellRecord where
  label : Int
  parent : Option Int
  daughters : List Int
  frames : List Int
  deriving Repr, DecidableEq

/-- Lineage dictionary for one movie: insertion-ordered map from cell id to record. -/
abbrev Lineage := List (Int × CellRecord)

/-- Label volume: a 3D stack (frame, row, column) of integer cell labels. -/
abbrev Volume := List (List (List Int))

/-- Multiset of all pixel values occurring in a volume. -/
def pixels (y : Volume) : List Int := (y.map List.flatten).flatten

/-- Embedding of `np.unique(y)`: the sorted duplicate-free list of pixel values. -/
def uniqueLabels (y : Volume) : List Int :=
  ((pixels y).dedup).insertionSort (· ≤ ·)

/-- Sorted list of the distinct non-zero labels of a volume (`np.unique` minus 0). -/
def uniqueNonzero (y : Volume) : List Int :=
  (uniqueLabels y).filter (fun c => c ≠ 0)

/-- Whether a single 2D frame contains a pixel equal to `c`. -/
def frameHas (fr : List (List Int)) (c : Int) : Bool :=
  fr.any (fun row => row.any (fun px => px == c))

/-- Embedding of `np.any(y == c, axis=(1, 2)).nonzero()[0]`: the increasing list
of frame indices whose frame contains label `c`. -/
def framesOf (y : Volume) (c : Int) : List Int :=
  ((List.range y.length).filter (fun f => frameHas (y.getD f []) c)).map Int.ofNat

/-- Decimal digit character for a value below ten. -/
def digit_char (d : Nat) : Char := Char.ofNat (48 + d)

/-- Numeric value of a decimal digit character. -/
def char_val (c : Char) : Nat := c.toNat - 48

/-- Whether a character is a decimal digit `0`..`9`. -/
def is_digit_char (c : Char) : Bool := 48 ≤ c.toNat && c.toNat ≤ 57

/-- Little-endian decimal digits of `n`, with explicit structural fuel. -/
def rev_digits : Nat → Nat → List Nat
  | _, 0 => []
  | 0, _ + 1 => []
  | fuel + 1, n + 1 => ((n + 1) % 10) :: rev_digits fuel ((n + 1) / 10)

/-- Decimal numeral of a natural number, as a character list (Python `str`). -/
def nat_str_chars (n : Nat) : List Char :=
  if n = 0 then ['0'] else ((rev_digits n n).reverse.map digit_char)

/-- Python `str` on an integer. -/
def py_str_int (i : Int) : String :=
  if i < 0 then String.mk ('-' :: nat_str_chars i.natAbs)
  else String.mk (nat_str_chars i.natAbs)

/-- Strict decimal parse of a character list into a natural number. -/
def parse_nat_chars (l : List Char) : Option Nat :=
  if l ≠ [] ∧ l.all is_digit_char then
    some (l.foldl (fun a c => 10 * a + char_val c) 0)
  else none

/-- Python `int` applied to a string key; `none` models a raised `ValueError`. -/
def py_int_of_str (s : String) : Option Int :=
  match s.data with
  | [] => none
  | c :: rest =>
    if c = '-' then
      match parse_nat_chars rest with
      | none => none
      | some n => some (-(n : Int))
    else
      match parse_nat_chars (c :: rest) with
      | none => none
      | some n => some ((n : Int))

/-- JSON value tree; object fields keep their textual keys and their order. -/
inductive Json where
  | null
  | int (n : Int)
  | str (s : String)
  | arr (xs : List Json)
  | obj (kvs : List (String × Json))

/-- Option-valued traversal of a list, failing if any element fails. -/
def optTraverse (f : α → Option β) : List α → Option (List β)
  | [] => some []
  | a :: as =>
    match f a, optTraverse f as with
    | some b, some bs => some (b :: bs)
    | _, _ => none

/-- JSON encoding of one cell record, with the field order used by the codec. -/
def encodeRecord (r : CellRecord) : Json :=
  .obj [("label", .int r.label),
        ("parent", match r.parent with | none => .null | some p => .int p),
        ("daughters", .arr (r.daughters.map .int)),
        ("frames", .arr (r.frames.map .int))]

/-- Decoding of the nullable `parent` field. -/
def decodeParentField : Json → Option (Option Int)
  | .null => some none
  | .int n => some (some n)
  | _ => none

/-- Decoding of a JSON array of integers. -/
def decodeInts : Json → Option (List Int)
  | .arr xs => optTraverse (fun j => match j with | .int n => some n | _ => none) xs
  | _ => none

/-- Decoding of one cell record from its JSON object form. -/
def decodeRecord : Json → Option CellRecord
  | .obj [("label", lj), ("parent", pj), ("daughters", dj), ("frames", fj)] =>
    match lj, decodeParentField pj, decodeInts dj, decodeInts fj with
    | .int l, some p, some ds, some fs => some ⟨l, p, ds, fs⟩
    | _, _, _, _ => none
  | _ => none

/-- JSON encoding of a lineage dictionary: `json.dump` stringifies the int keys. -/
def encodeLineage (lin : Lineage) : Json :=
  .obj (lin.map (fun kr => (py_str_int kr.1, encodeRecord kr.2)))

/-- Decoding of a lineage dictionary; keys are re-keyed via `int(k)` as in
`load_trks`'s `{int(k): v for k, v in tracks.items()}`. -/
def decodeLineage : Json → Option Lineage
  | .obj kvs =>
    optTraverse (fun kv =>
      match py_int_of_str kv.1, decodeRecord kv.2 with
      | some k, some r => some (k, r)
      | _, _ => none) kvs
  | _ => none

/-- Gzip-compressed tar archive produced by `save_track_data`: the two binary
array entries `raw.npy`/`tracked.npy` (stored losslessly) and the named JSON
text entries. -/
structure Archive (α β : Type) where
  raw : α
  tracked : β
  jsonEntries : List (String × Json)

/-- Result dictionary of `load_trks`: `{'lineages': ..., 'X': ..., 'y': ...}`. -/
structure Trks (α β : Type) where
  lineages : List Lineage
  X : α
  y : β

/-- Python error outcomes distinguished by the claims. -/
inductive PyError where
  | valueError
  | indexError
  deriving Repr, DecidableEq

/-- Lineage argument of the save paths: a single dictionary or a list of them. -/
inductive LineageArg where
  | dict (l : Lineage)
  | list (ls : List Lineage)

/-- JSON payload written by `json.dump(lineages, ...)` in `save_track_data`. -/
def encodePayload : LineageArg → Json
  | .dict l => encodeLineage l
  | .list ls => .arr (ls.map encodeLineage)

/-- Embedding of `save_track_data`: writes the lineage payload under
`lineage_name` together with the raw and tracked arrays. -/
def save_track_data (lineages : LineageArg) (raw : α) (tracked : β)
    (lineage_name : String) : Archive α β :=
  ⟨raw, tracked, [(lineage_name, encodePayload lineages)]⟩

/-- Lineage entry located by `load_trks`: `lineages.json` is tried first, then
`lineage.json`. -/
def lineage_entry (A : Archive α β) : Option Json :=
  match A.jsonEntries.lookup "lineages.json" with
  | some j => some j
  | none => A.jsonEntries.lookup "lineage.json"

/-- Decoding of the lineage payload: a non-list payload is wrapped into a
one-element list, then every element is re-keyed to integer keys. -/
def decode_lineages (j : Json) : Option (List Lineage) :=
  match j with
  | .arr xs => optTraverse decodeLineage xs
  | other => (decodeLineage other).map (fun l => [l])

/-- Continuation of `load_trks` after the lineage entry has been located. -/
def load_with (A : Archive α β) (j : Json) : Except PyError (Trks α β) :=
  match decode_lineages j with
  | none => .error .valueError
  | some ls => .ok ⟨ls, A.raw, A.tracked⟩

/-- Embedding of `load_trks`: locate the lineage entry (raising the
invalid-container `ValueError` when neither name exists), decode it, and
return the arrays bit-exact. -/
def load_trks (A : Archive α β) : Except PyError (Trks α β) :=
  match lineage_entry A with
  | none => .error .valueError
  | some j => load_with A j

/-- Index of the last occurrence of a character in a list, if any. -/
def lastIdxOf (l : List Char) (c : Char) : Option Nat :=
  ((l.enum.filter (fun p => p.2 == c)).map Prod.fst).getLast?

/-- Extension component of `os.path.splitext` (posix rules): the suffix from
the last dot of the final path component, unless every preceding character of
that component is itself a dot. -/
def splitext_ext (s : String) : String :=
  let l := s.data
  let fnameStart : Nat := match lastIdxOf l '/' with | none => 0 | some i => i + 1
  match lastIdxOf l '.' with
  | none => ""
  | some d =>
    if fnameStart ≤ d ∧
        ((l.drop fnameStart).take (d - fnameStart)).any (fun c => c ≠ '.') then
      String.mk (l.drop d)
    else ""

/-- Save target: a filesystem path or an in-memory bytes buffer. -/
inductive FileTarget where
  | path (s : String)
  | buffer

/-- Extension validation shared by `save_trk` and `save_trks`: a path whose
`splitext` extension differs from `ext` raises `ValueError`; a bytes buffer is
never checked. -/
def extCheck (f : FileTarget) (ext : String) : Except PyError Unit :=
  match f with
  | .path s => if splitext_ext s ≠ ext then .error .valueError else .ok ()
  | .buffer => .ok ()

/-- Embedding of `save_trk`: extension check, then normalization of a list
argument (`IndexError` on `[0]` of an empty list, `ValueError` on a longer
list), then `save_track_data` under `lineage.json`. -/
def save_trk (f : FileTarget) (lineage : LineageArg) (raw : α) (tracked : β) :
    Except PyError (Archive α β) :=
  match extCheck f ".trk" with
  | .error e => .error e
  | .ok _ =>
    match lineage with
    | .dict l => .ok (save_track_data (.dict l) raw tracked "lineage.json")
    | .list ls =>
      if ls.length > 1 then .error .valueError
      else
        match ls with
        | [] => .error .indexError
        | l0 :: _ => .ok (save_track_data (.dict l0) raw tracked "lineage.json")

/-- Embedding of `save_trks`: extension check, then `save_track_data` of the
whole list under `lineages.json`. -/
def save_trks (f : FileTarget) (lineages : List Lineage) (raw : α) (tracked : β) :
    Except PyError (Archive α β) :=
  match extCheck f ".trks" with
  | .error e => .error e
  | .ok _ => .ok (save_track_data (.list lineages) raw tracked "lineages.json")

/-- Daughter loop of `is_valid_lineage`.  `allCells` is the working id set at
the time the current record is processed (the current and all previously
processed labels already removed); `lastFrame` is the last stored frame of the
current record.  Returns `false` as soon as one daughter fails. -/
def checkDaughters (allCells : List Int) (lin : Lineage) (lastFrame : Int) :
    List Int → Bool
  | [] => true
  | d :: ds =>
    if d ∉ allCells ∨ lin.lookup d = none then false
    else
      match (lin.lookup d).bind (fun r => r.frames.head?) with
      | none => false
      | some fd =>
        if fd - lastFrame ≠ 1 then false
        else checkDaughters allCells lin lastFrame ds

/-- Parent check of `is_valid_lineage`.  Mirrors Python truthiness: a `None`
or `0` parent skips the check entirely; a missing parent record, an empty
frame list on either side, or a frame gap other than `+1` fails. -/
def checkParent (lin : Lineage) (recFrames : List Int) : Option Int → Bool
  | none => true
  | some p =>
    if p = 0 then true
    else
      match lin.lookup p with
      | none => false
      | some pl =>
        match pl.frames.getLast?, recFrames.head? with
        | some lastP, some firstC => firstC - lastP == 1
        | _, _ => false

/-- Record loop of `is_valid_lineage`.  The only unguarded partial operation of
the source, `cell_lineage['frames'][-1]`, is modelled by the `.error ()` arm;
every guarded failure returns `.ok false` as the source returns `False`. -/
def validLoop (y : Volume) (lin : Lineage) :
    List Int → List (Int × CellRecord) → Except Unit Bool
  | allCells, [] => .ok allCells.isEmpty
  | allCells, (label, r) :: rest =>
    if label ∉ allCells then .ok false
    else if framesOf y label ≠ r.frames then .ok false
    else
      match r.frames.getLast? with
      | none => .error ()
      | some lastFrame =>
        if checkDaughters (allCells.erase label) lin lastFrame r.daughters = false then
          .ok false
        else if checkParent lin r.frames r.parent = false then .ok false
        else validLoop y lin (allCells.erase label) rest

/-- Embedding of `is_valid_lineage`. -/
def is_valid_lineage (y : Volume) (lin : Lineage) : Except Unit Bool :=
  validLoop y lin (uniqueNonzero y) lin

/-- Forward map of `skimage.segmentation.relabel_sequential` with offset 1:
the k-th smallest non-zero label maps to `k + 1`; background and labels absent
from the volume map to 0. -/
def fwNat (y : Volume) (c : Int) : Nat :=
  if c ∈ uniqueNonzero y then (uniqueNonzero y).indexOf c + 1 else 0

/-- Forward map cast back to the pixel value type. -/
def fwInt (y : Volume) (c : Int) : Int := (fwNat y c : Int)

/-- Relabeled volume `y_relabel`: the forward map applied to every pixel. -/
def relabelVolume (y : Volume) : Volume :=
  y.map (fun fr => fr.map (fun row => row.map (fwInt y)))

/-- Per-cell step of `relabel_sequential_lineage`: the dictionary access
`lineage[cell_id]` is partial (`none` models the raised `KeyError`); the new
record gets `label = fw[cell_id]`, the forward-mapped parent, the
forward-mapped daughters with the zero images dropped (with a warning), and
frames recomputed from the image. -/
def relabelEntry (y : Volume) (lin : Lineage) (cid : Int) :
    Option (Int × CellRecord) :=
  match lin.lookup cid with
  | none => none
  | some r =>
    some (fwInt y cid,
      { label := fwInt y cid,
        parent := match r.parent with | none => none | some p => some (fwInt y p),
        daughters := (r.daughters.map (fwInt y)).filter (fun d => d ≠ 0),
        frames := framesOf y cid })

/-- Embedding of `relabel_sequential_lineage`: iterate over the sorted
non-zero labels of the image, building the new lineage and the relabeled
volume. -/
def relabel_sequential_lineage (y : Volume) (lin : Lineage) :
    Option (Volume × Lineage) :=
  (optTraverse (relabelEntry y lin) (uniqueNonzero y)).map
    (fun entries => (relabelVolume y, entries))

/-- Ids referenced by a lineage graph: its keys, parents, and daughters. -/
def referenced_ids (lin : Lineage) : List Int :=
  lin.map Prod.fst ++
    lin.flatMap (fun kr =>
      (match kr.2.parent with | none => [] | some p => [p]) ++ kr.2.daughters)

/-- Chunk of the natural sort key of `trk_folder_to_trks`: a piece of
`re.split('([0-9]+)', key)` after `convert`, either literal text or the
integer value of a digit run. -/
inductive Chunk where
  | txt (s : List Char)
  | num (n : Nat)
  deriving Repr, DecidableEq

/-- Integer value of a run of decimal digit characters. -/
def digits_val (l : List Char) : Nat := l.foldl (fun a c => 10 * a + char_val c) 0

/-- Fuel-driven splitting of a character list into alternating text chunks and
numeric chunks, text first and last (possibly empty), as `re.split` produces
with a capturing digit group. -/
def chunksFuel : Nat → List Char → List Chunk
  | 0, _ => []
  | fuel + 1, cs =>
    if (cs.dropWhile (fun c => !(is_digit_char c))) = [] then
      [Chunk.txt (cs.takeWhile (fun c => !(is_digit_char c)))]
    else
      Chunk.txt (cs.takeWhile (fun c => !(is_digit_char c))) ::
        Chunk.num (digits_val
          ((cs.dropWhile (fun c => !(is_digit_char c))).takeWhile is_digit_char)) ::
        chunksFuel fuel ((cs.dropWhile (fun c => !(is_digit_char c))).dropWhile is_digit_char)

/-- Embedding of `alphanum_key`: `[convert(c) for c in re.split('([0-9]+)', key)]`. -/
def alphanumKey (s : String) : List Chunk := chunksFuel (s.data.length + 1) s.data

/-- Strict lexicographic comparison of character lists by code point
(Python string `<`). -/
def strLT : List Char → List Char → Bool
  | [], [] => false
  | [], _ :: _ => true
  | _ :: _, [] => false
  | a :: as, b :: bs =>
    if a.toNat < b.toNat then true
    else if b.toNat < a.toNat then false
    else strLT as bs

/-- Strict comparison of key chunks.  Two text chunks compare as strings, two
numeric chunks as integers; the mixed cases never arise between alphanumeric
keys (chunks alternate with text at even positions in every key) and are
ordered arbitrarily to make the comparison total. -/
def chunkLT : Chunk → Chunk → Bool
  | .txt s, .txt t => strLT s t
  | .num m, .num n => decide (m < n)
  | .txt _, .num _ => true
  | .num _, .txt _ => false

/-- Non-strict lexicographic comparison of chunk lists (Python list `<=`):
a prefix sorts before every extension. -/
def keyLE : List Chunk → List Chunk → Bool
  | [], _ => true
  | _ :: _, [] => false
  | a :: as, b :: bs =>
    if chunkLT a b then true
    else if chunkLT b a then false
    else keyLE as bs

/-- Ordering used by `sorted(file_list, key=alphanum_key)`: compare the
alphanumeric keys. -/
def fileOrder (a b : String) : Prop :=
  keyLE (alphanumKey a) (alphanumKey b) = true

instance : DecidableRel fileOrder := fun a b =>
  inferInstanceAs (Decidable (keyLE (alphanumKey a) (alphanumKey b) = true))

/-- Embedding of the Batch Importer's sorted listing
`sorted(file_list, key=alphanum_key)` (a stable sort by the natural key). -/
def trk_sorted_files (file_list : List String) : List String :=
  file_list.insertionSort fileOrder

/-! ### Lemmas, claim theorems, witnesses and counterexamples -/

example : py_int_of_str (py_str_int 41) = some 41 := by decide

example : py_int_of_str (py_str_int (-307)) = some (-307) := by decide

example : py_int_of_str (py_str_int 0) = some 0 := by decide

example : splitext_ext "movies/a.trk" = ".trk" := by decide

example : splitext_ext "a.trks" = ".trks" := by decide

example : splitext_ext ".trk" = "" := by decide

example : splitext_ext "dir.d/plain" = "" := by decide

example :
    is_valid_lineage [[[1]], [[2]]]
      [(1, ⟨1, none, [2], [0]⟩), (2, ⟨2, some 1, [], [1]⟩)] = .ok true := by rfl

example :
    is_valid_lineage [[[1]], [[2]]]
      [(2, ⟨2, some 1, [], [1]⟩), (1, ⟨1, none, [2], [0]⟩)] = .ok false := by rfl

example :
    relabel_sequential_lineage [[[0, 5]], [[5, 9]]]
      [(5, ⟨5, none, [9], [0, 1]⟩), (9, ⟨9, some 5, [], [1]⟩)] =
    some ([[[0, 1]], [[1, 2]]],
      [(1, ⟨1, none, [2], [0, 1]⟩), (2, ⟨2, some 1, [], [1]⟩)]) := by decide

example : relabel_sequential_lineage [[[5]]] [] = none := by decide

lemma char_val_digit_char {d : Nat} (h : d < 10) :
    char_val (digit_char d) = d ∧ is_digit_char (digit_char d) = true := by
  revert h
  revert d
  decide

lemma rev_digits_lt_ten {fuel n : Nat} : ∀ d ∈ rev_digits fuel n, d < 10 := by
  induction fuel generalizing n with
  | zero => cases n <;> simp [rev_digits]
  | succ fuel ih =>
    cases n with
    | zero => simp [rev_digits]
    | succ m =>
      intro d hd
      rw [rev_digits] at hd
      rcases List.mem_cons.mp hd with h | h
      · omega
      · exact ih _ h

lemma rev_digits_foldr {fuel n : Nat} (h : n ≤ fuel) :
    (rev_digits fuel n).foldr (fun d a => 10 * a + char_val (digit_char d)) 0 = n := by
  induction fuel generalizing n with
  | zero =>
    interval_cases n
    simp [rev_digits]
  | succ fuel ih =>
    cases n with
    | zero => simp [rev_digits]
    | succ m =>
      rw [rev_digits]
      have hdiv : (m + 1) / 10 ≤ fuel := by
        have := Nat.div_lt_self (Nat.succ_pos m) (by norm_num : (1:Nat) < 10)
        omega
      have hmod : (m + 1) % 10 < 10 := Nat.mod_lt _ (by norm_num)
      simp only [List.foldr_cons, ih hdiv, (char_val_digit_char hmod).1]
      omega

lemma nat_str_chars_digits {n : Nat} : ∀ c ∈ nat_str_chars n, is_digit_char c = true := by
  intro c hc
  unfold nat_str_chars at hc
  by_cases h0 : n = 0
  · simp [h0] at hc
    subst hc
    decide
  · simp only [h0, if_false, List.mem_map, List.mem_reverse] at hc
    obtain ⟨d, hd, rfl⟩ := hc
    exact (char_val_digit_char (rev_digits_lt_ten d hd)).2

lemma nat_str_chars_ne_nil {n : Nat} : nat_str_chars n ≠ [] := by
  unfold nat_str_chars
  by_cases h0 : n = 0
  · simp [h0]
  · obtain ⟨m, rfl⟩ := Nat.exists_eq_succ_of_ne_zero h0
    simp [rev_digits]

lemma parse_nat_str_chars (n : Nat) : parse_nat_chars (nat_str_chars n) = some n := by
  unfold parse_nat_chars
  rw [if_pos ⟨nat_str_chars_ne_nil, List.all_eq_true.mpr nat_str_chars_digits⟩]
  unfold nat_str_chars
  by_cases h0 : n = 0
  · simp [h0, char_val]
  · simp only [h0, if_false]
    rw [List.foldl_map, List.foldl_reverse]
    exact congrArg some (rev_digits_foldr (Nat.le_refl n))

lemma digit_char_ne_dash {c : Char} (h : is_digit_char c = true) : ¬ c = '-' := by
  intro he
  subst he
  exact absurd h (by decide)

lemma string_data_mk (l : List Char) : (String.mk l).data = l := rfl

/-- Key round-trip: Python `int(str(k)) == k` for every integer key. -/
lemma py_int_of_py_str (k : Int) : py_int_of_str (py_str_int k) = some k := by
  unfold py_str_int
  by_cases hneg : k < 0
  · simp only [hneg, if_true]
    unfold py_int_of_str
    simp only [string_data_mk]
    rw [parse_nat_str_chars]
    simp [Int.ofNat_natAbs_of_nonpos (Int.le_of_lt hneg)]
  · simp only [hneg, if_false]
    rcases hl : nat_str_chars k.natAbs with _ | ⟨c, rest⟩
    · exact absurd hl nat_str_chars_ne_nil
    · have hdig : is_digit_char c = true :=
        nat_str_chars_digits c (by rw [hl]; exact List.mem_cons_self c rest)
      unfold py_int_of_str
      simp only [string_data_mk, hl]
      rw [if_neg (digit_char_ne_dash hdig), ← hl, parse_nat_str_chars]
      simp [Int.natAbs_of_nonneg (Int.not_lt.mp hneg)]

lemma optTraverse_int (l : List Int) :
    optTraverse (fun j => match j with | Json.int n => some n | _ => none)
      (l.map Json.int) = some l := by
  induction l with
  | nil => rfl
  | cons a as ih => simp [optTraverse, ih]

lemma decodeInts_encode (l : List Int) : decodeInts (.arr (l.map .int)) = some l := by
  simp [decodeInts, optTraverse_int]

lemma decode_encode_record (r : CellRecord) :
    decodeRecord (encodeRecord r) = some r := by
  obtain ⟨lab, par, ds, fs⟩ := r
  unfold encodeRecord decodeRecord
  cases par with
  | none => simp [decodeParentField, decodeInts_encode]
  | some p => simp [decodeParentField, decodeInts_encode]

lemma optTraverse_kv (lin : Lineage) :
    optTraverse (fun kv =>
        match py_int_of_str kv.1, decodeRecord kv.2 with
        | some k, some r => some (k, r)
        | _, _ => none)
      (lin.map (fun kr => (py_str_int kr.1, encodeRecord kr.2))) = some lin := by
  induction lin with
  | nil => rfl
  | cons kr rest ih =>
    simp [optTraverse, py_int_of_py_str, decode_encode_record, ih]

lemma decode_encode_lineage (lin : Lineage) :
    decodeLineage (encodeLineage lin) = some lin := by
  simp [decodeLineage, encodeLineage, optTraverse_kv]

lemma decode_lineages_single (lin : Lineage) :
    decode_lineages (encodeLineage lin) = some [lin] := by
  have h := decode_encode_lineage lin
  unfold encodeLineage at h ⊢
  unfold decode_lineages
  simp [h]

lemma optTraverse_lineages (lins : List Lineage) :
    optTraverse decodeLineage (lins.map encodeLineage) = some lins := by
  induction lins with
  | nil => rfl
  | cons l rest ih => simp [optTraverse, decode_encode_lineage, ih]

lemma decode_lineages_batch (lins : List Lineage) :
    decode_lineages (.arr (lins.map encodeLineage)) = some lins := by
  simp [decode_lineages, optTraverse_lineages]

/-- Claim C1: save/load round-trip.  For any raw stack, label stack, and
lineage dictionary (integer cell IDs mapping to records of integers, a
nullable integer parent and integer lists), loading the archive produced by
the save path returns the raw and tracked arrays bit-exact and the lineage
with every cell ID recovered as an integer key and every record field equal
to the original; this holds for the single-movie payload (wrapped into a
one-element list on load) and for the batch payload. -/
theorem c1_save_load_round_trip {α β : Type} (raw : α) (tracked : β) :
    (∀ lin : Lineage,
      load_trks (save_track_data (.dict lin) raw tracked "lineage.json") =
        .ok ⟨[lin], raw, tracked⟩) ∧
    (∀ lins : List Lineage,
      load_trks (save_track_data (.list lins) raw tracked "lineages.json") =
        .ok ⟨lins, raw, tracked⟩) := by
  constructor
  · intro lin
    have he : lineage_entry (save_track_data (.dict lin) raw tracked "lineage.json") =
        some (encodeLineage lin) := rfl
    unfold load_trks
    rw [he]
    unfold load_with
    simp [decode_lineages_single, save_track_data]
  · intro lins
    have he : lineage_entry (save_track_data (.list lins) raw tracked "lineages.json") =
        some (.arr (lins.map encodeLineage)) := rfl
    unfold load_trks
    rw [he]
    unfold load_with
    simp [decode_lineages_batch, save_track_data]

/-- Claim C6 (amended): `load_trks` locates the lineage entry by trying the
batch entry name `lineages.json` first and the single-movie name
`lineage.json` second; an archive containing neither raises the
invalid-container `ValueError`, and an archive containing both is decoded
from the batch entry. -/
theorem c6_lineage_entry_priority {α β : Type} (A : Archive α β) :
    (A.jsonEntries.lookup "lineages.json" = none →
      A.jsonEntries.lookup "lineage.json" = none →
      load_trks A = .error .valueError) ∧
    (∀ j, A.jsonEntries.lookup "lineages.json" = some j →
      load_trks A = load_with A j) := by
  constructor
  · intro h1 h2
    unfold load_trks lineage_entry
    rw [h1, h2]
  · intro j hj
    unfold load_trks lineage_entry
    rw [hj]

/-- Witness for C6: a concrete archive with both entries is decoded from the
batch entry, and a concrete archive with neither raises the error. -/
theorem c6_lineage_entry_priority_witness :
    load_trks (⟨(), (), [("lineages.json", Json.arr []), ("lineage.json", Json.null)]⟩ :
        Archive Unit Unit) =
      load_with ⟨(), (), [("lineages.json", Json.arr []), ("lineage.json", Json.null)]⟩
        (Json.arr []) ∧
    load_trks (⟨(), (), []⟩ : Archive Unit Unit) = .error .valueError :=
  ⟨(c6_lineage_entry_priority _).2 (Json.arr []) rfl,
   (c6_lineage_entry_priority _).1 rfl rfl⟩

/-- Counterexample to C6 as stated: an archive containing both lineage entry
names is decoded from the batch entry `lineages.json` (yielding `[]` here),
not from the single-movie entry `lineage.json` (which decodes to a different,
non-empty lineage list). -/
theorem c6_counterexample :
    load_trks (⟨(), (), [("lineage.json", encodeLineage [(1, ⟨1, none, [], [0]⟩)]),
                         ("lineages.json", Json.arr [])]⟩ : Archive Unit Unit) =
      .ok ⟨[], (), ()⟩ ∧
    decode_lineages (encodeLineage [(1, ⟨1, none, [], [0]⟩)]) =
      some [[(1, ⟨1, none, [], [0]⟩)]] ∧
    ([] : List Lineage) ≠ [[(1, ⟨1, none, [], [0]⟩)]] :=
  ⟨rfl, decode_lineages_single _, by simp⟩

/-- Claim C7: for string filenames, `save_trk` raises `ValueError` exactly
when the `splitext` extension is not `.trk`, and `save_trks` exactly when it
is not `.trks`; a bytes-buffer target bypasses the extension check in both
functions. -/
theorem c7_extension_enforcement {α β : Type} (raw : α) (tracked : β) :
    (∀ s lin, (save_trk (.path s) (.dict lin) raw tracked = .error .valueError ↔
        splitext_ext s ≠ ".trk")) ∧
    (∀ s lins, (save_trks (.path s) lins raw tracked = .error .valueError ↔
        splitext_ext s ≠ ".trks")) ∧
    (∀ lin : Lineage, (save_trk .buffer (.dict lin) raw tracked).isOk = true) ∧
    (∀ lins : List Lineage, (save_trks .buffer lins raw tracked).isOk = true) := by
  refine ⟨fun s lin => ?_, fun s lins => ?_, fun lin => rfl, fun lins => rfl⟩
  · unfold save_trk extCheck
    by_cases h : splitext_ext s ≠ ".trk"
    · simp [h]
    · simp [h]
  · unfold save_trks extCheck
    by_cases h : splitext_ext s ≠ ".trks"
    · simp [h]
    · simp [h]

/-- Claim C9: calling `save_trk` with an empty list as the lineage argument
raises `IndexError` (from `lineage[0]`) and never produces an archive; it is
neither treated as a single mapping nor reported with the multi-element
`ValueError`. -/
theorem c9_empty_lineage_list {α β : Type} (raw : α) (tracked : β) (f : FileTarget)
    (h : extCheck f ".trk" = .ok ()) :
    save_trk f (.list []) raw tracked = .error .indexError := by
  unfold save_trk
  rw [h]
  rfl

/-- Witness for C9 at a concrete `.trk` path and at a bytes buffer. -/
theorem c9_empty_lineage_list_witness :
    save_trk (.path "a.trk") (.list []) (0 : Int) (0 : Int) = .error .indexError :=
  c9_empty_lineage_list 0 0 (.path "a.trk") rfl

lemma mem_pixels_of {y : Volume} {fr : List (List Int)} {row : List Int} {px : Int}
    (hfr : fr ∈ y) (hrow : row ∈ fr) (hpx : px ∈ row) : px ∈ pixels y := by
  unfold pixels
  rw [List.mem_flatten]
  exact ⟨fr.flatten, List.mem_map.mpr ⟨fr, hfr, rfl⟩,
    List.mem_flatten.mpr ⟨row, hrow, hpx⟩⟩

lemma mem_uniqueNonzero {y : Volume} {c : Int} :
    c ∈ uniqueNonzero y ↔ c ∈ pixels y ∧ c ≠ 0 := by
  unfold uniqueNonzero uniqueLabels
  rw [List.mem_filter, (List.perm_insertionSort _ _).mem_iff, List.mem_dedup]
  simp

lemma frameHas_of_mem {fr : List (List Int)} {row : List Int} {c : Int}
    (hrow : row ∈ fr) (hc : c ∈ row) : frameHas fr c = true := by
  unfold frameHas
  rw [List.any_eq_true]
  exact ⟨row, hrow, List.any_eq_true.mpr ⟨c, hc, by simp⟩⟩

lemma framesOf_ne_nil {y : Volume} {c : Int} (hc : c ∈ uniqueNonzero y) :
    framesOf y c ≠ [] := by
  obtain ⟨hpix, -⟩ := mem_uniqueNonzero.mp hc
  unfold pixels at hpix
  rw [List.mem_flatten] at hpix
  obtain ⟨l, hl, hcl⟩ := hpix
  obtain ⟨fr, hfr, rfl⟩ := List.mem_map.mp hl
  obtain ⟨row, hrow, hcrow⟩ := List.mem_flatten.mp hcl
  obtain ⟨⟨f, hf⟩, hget⟩ := List.mem_iff_get.mp hfr
  have hgetD : y.getD f [] = fr := by
    rw [List.getD_eq_getElem?_getD, List.getElem?_eq_getElem hf]
    exact hget
  have hfmem : f ∈ (List.range y.length).filter (fun g => frameHas (y.getD g []) c) := by
    refine List.mem_filter.mpr ⟨List.mem_range.mpr hf, ?_⟩
    rw [hgetD]
    exact frameHas_of_mem hrow hcrow
  intro hnil
  unfold framesOf at hnil
  rw [List.map_eq_nil_iff] at hnil
  rw [hnil] at hfmem
  simp at hfmem

lemma validLoop_isOk (y : Volume) (lin : Lineage) :
    ∀ (entries : List (Int × CellRecord)) (allCells : List Int),
      (∀ c ∈ allCells, c ∈ uniqueNonzero y) →
      ∃ b, validLoop y lin allCells entries = .ok b := by
  intro entries
  induction entries with
  | nil => exact fun allCells _ => ⟨allCells.isEmpty, rfl⟩
  | cons hd rest ih =>
    intro allCells hsub
    obtain ⟨label, r⟩ := hd
    unfold validLoop
    by_cases hmem : label ∉ allCells
    · rw [if_pos hmem]
      exact ⟨false, rfl⟩
    · rw [if_neg hmem]
      by_cases hfr : framesOf y label ≠ r.frames
      · rw [if_pos hfr]
        exact ⟨false, rfl⟩
      · rw [if_neg hfr]
        push_neg at hfr hmem
        have hne : r.frames ≠ [] := by
          rw [← hfr]
          exact framesOf_ne_nil (hsub label hmem)
        cases hgl : r.frames.getLast? with
        | none => exact absurd (List.getLast?_eq_none_iff.mp hgl) hne
        | some lastFrame =>
          dsimp only
          by_cases hd1 : checkDaughters (allCells.erase label) lin lastFrame
              r.daughters = false
          · rw [if_pos hd1]
            exact ⟨false, rfl⟩
          · rw [if_neg hd1]
            by_cases hp1 : checkParent lin r.frames r.parent = false
            · rw [if_pos hp1]
              exact ⟨false, rfl⟩
            · rw [if_neg hp1]
              exact ih (allCells.erase label)
                (fun c hc => hsub c (List.mem_of_mem_erase hc))

/-- Claim C10: the unguarded access `cell_lineage['frames'][-1]` never fails.
For every label volume and every lineage whose records carry `frames` and
`daughters` lists, `is_valid_lineage` returns an ordinary boolean (it never
reaches the modelled `IndexError` arm), because the access is only reached
after the stored frames were checked equal to the recomputed, provably
non-empty frame list. -/
theorem c10_last_frame_access_safe (y : Volume) (lin : Lineage) :
    ∃ b, is_valid_lineage y lin = .ok b :=
  validLoop_isOk y lin lin (uniqueNonzero y) (fun _ hc => hc)

/-- Claim C2 (amended): the daughter loop fails exactly when some daughter is
missing from the *working* id set (the original non-zero image ids minus the
labels of the records already processed, including the current one) or
missing from the lineage, or has an empty frame list, or violates the `+1`
frame adjacency with the current record's last frame. -/
theorem c2_daughter_check_characterization (A : List Int) (lin : Lineage)
    (lf : Int) (ds : List Int) :
    checkDaughters A lin lf ds = false ↔
      ∃ d ∈ ds, d ∉ A ∨ lin.lookup d = none ∨
        ∃ r, lin.lookup d = some r ∧
          (r.frames = [] ∨ ∃ f0, r.frames.head? = some f0 ∧ f0 - lf ≠ 1) := by
  induction ds with
  | nil => simp [checkDaughters]
  | cons d ds ih =>
    unfold checkDaughters
    by_cases h1 : d ∉ A ∨ lin.lookup d = none
    · rw [if_pos h1]
      simp only [true_iff, eq_self_iff_true]
      exact ⟨d, List.mem_cons_self d ds, by tauto⟩
    · rw [if_neg h1]
      push_neg at h1
      obtain ⟨hdA, hdl⟩ := h1
      obtain ⟨r, hr⟩ := Option.ne_none_iff_exists'.mp hdl
      rw [hr]
      rw [show (some r).bind (fun r => r.frames.head?) = r.frames.head? from rfl]
      cases hh : r.frames.head? with
      | none =>
        have hre : r.frames = [] := List.head?_eq_none_iff.mp hh
        dsimp only
        simp only [eq_self_iff_true, true_iff]
        exact ⟨d, List.mem_cons_self d ds, Or.inr (Or.inr ⟨r, hr, Or.inl hre⟩)⟩
      | some f0 =>
        dsimp only
        by_cases hadj : f0 - lf ≠ 1
        · rw [if_pos hadj]
          simp only [eq_self_iff_true, true_iff]
          exact ⟨d, List.mem_cons_self d ds,
            Or.inr (Or.inr ⟨r, hr, Or.inr ⟨f0, hh, hadj⟩⟩)⟩
        · rw [if_neg hadj]
          push_neg at hadj
          rw [ih]
          constructor
          · rintro ⟨d', hd', hP⟩
            exact ⟨d', List.mem_cons_of_mem d hd', hP⟩
          · rintro ⟨d', hd', hP⟩
            rcases List.mem_cons.mp hd' with rfl | hmem
            · exfalso
              rcases hP with h | h | ⟨r', hr', h⟩
              · exact h hdA
              · exact hdl h
              · rw [hr] at hr'
                cases hr'
                rcases h with h | ⟨f0', hf0', hne⟩
                · rw [h] at hh
                  simp at hh
                · rw [hh] at hf0'
                  cases hf0'
                  exact hne hadj
            · exact ⟨d', hmem, hP⟩

/-- Counterexample to C2 as stated: a movie with parent cell 1 (frame 0,
daughter 2) and daughter cell 2 (frame 1) whose lineage dictionary lists the
daughter's record *before* the parent's.  Every daughter reference is present
in the original non-zero image-id set and in the lineage, satisfies the `+1`
adjacency and has non-empty frames, and every other validation rule passes,
yet `is_valid_lineage` returns `false`: the daughter was removed from the
working set before the parent was processed. -/
theorem c2_counterexample :
    is_valid_lineage [[[1]], [[2]]]
        [(2, ⟨2, some 1, [], [1]⟩), (1, ⟨1, none, [2], [0]⟩)] = .ok false ∧
    (∀ kr ∈ ([(2, ⟨2, some 1, [], [1]⟩), (1, ⟨1, none, [2], [0]⟩)] : Lineage),
      checkDaughters (uniqueNonzero [[[1]], [[2]]])
        [(2, ⟨2, some 1, [], [1]⟩), (1, ⟨1, none, [2], [0]⟩)]
        (kr.2.frames.getLast?.getD 0) kr.2.daughters = true) ∧
    (∀ kr ∈ ([(2, ⟨2, some 1, [], [1]⟩), (1, ⟨1, none, [2], [0]⟩)] : Lineage),
      kr.1 ∈ uniqueNonzero [[[1]], [[2]]] ∧
      framesOf [[[1]], [[2]]] kr.1 = kr.2.frames ∧
      kr.2.frames.getLast? = some (kr.2.frames.getLast?.getD 0) ∧
      checkParent [(2, ⟨2, some 1, [], [1]⟩), (1, ⟨1, none, [2], [0]⟩)]
        kr.2.frames kr.2.parent = true) ∧
    (∀ c ∈ uniqueNonzero [[[1]], [[2]]],
      ([(2, ⟨2, some 1, [], [1]⟩), (1, ⟨1, none, [2], [0]⟩)] : Lineage).lookup c ≠ none) :=
  ⟨rfl, by decide, by decide, by decide⟩

lemma validLoop_parent_checked (y : Volume) (lin : Lineage) :
    ∀ (entries : List (Int × CellRecord)) (allCells : List Int),
      validLoop y lin allCells entries = .ok true →
      ∀ kr ∈ entries, checkParent lin kr.2.frames kr.2.parent = true := by
  intro entries
  induction entries with
  | nil =>
    intro allCells _ kr hkr
    simp at hkr
  | cons hd rest ih =>
    intro allCells h kr hkr
    obtain ⟨label, r⟩ := hd
    unfold validLoop at h
    by_cases hmem : label ∉ allCells
    · rw [if_pos hmem] at h
      exact absurd h (by simp)
    · rw [if_neg hmem] at h
      by_cases hfr : framesOf y label ≠ r.frames
      · rw [if_pos hfr] at h
        exact absurd h (by simp)
      · rw [if_neg hfr] at h
        cases hgl : r.frames.getLast? with
        | none =>
          rw [hgl] at h
          exact absurd h (by simp)
        | some lastFrame =>
          rw [hgl] at h
          dsimp only at h
          by_cases hd1 : checkDaughters (allCells.erase label) lin lastFrame
              r.daughters = false
          · rw [if_pos hd1] at h
            exact absurd h (by simp)
          · rw [if_neg hd1] at h
            by_cases hp1 : checkParent lin r.frames r.parent = false
            · rw [if_pos hp1] at h
              exact absurd h (by simp)
            · rw [if_neg hp1] at h
              rcases List.mem_cons.mp hkr with rfl | hmem'
              · simpa using hp1
              · exact ih (allCells.erase label) h kr hmem'

/-- Claim C3 (amended): whenever a record of a lineage accepted by
`is_valid_lineage` declares a non-null *and non-zero* `parent`, the parent has
a record in the lineage, both frame lists are non-empty, and the record's
first frame is exactly one after the parent's last frame.  Equivalently, a
missing parent record, an empty frame list, or a broken `+1` adjacency forces
`is_valid_lineage` to return `false` — but only for parents that are neither
`None` nor `0`, since Python's `if parent:` skips the check for `parent == 0`. -/
theorem c3_parent_check (y : Volume) (lin : Lineage) (k : Int) (r : CellRecord)
    (p : Int) (hv : is_valid_lineage y lin = .ok true) (hmem : (k, r) ∈ lin)
    (hp : r.parent = some p) (hp0 : p ≠ 0) :
    ∃ pr, lin.lookup p = some pr ∧ pr.frames ≠ [] ∧ r.frames ≠ [] ∧
      ∃ lastP firstC, pr.frames.getLast? = some lastP ∧
        r.frames.head? = some firstC ∧ firstC - lastP = 1 := by
  have hc := validLoop_parent_checked y lin lin (uniqueNonzero y) hv (k, r) hmem
  rw [hp] at hc
  simp only [checkParent] at hc
  rw [if_neg hp0] at hc
  cases hl : lin.lookup p with
  | none =>
    rw [hl] at hc
    simp at hc
  | some pl =>
    rw [hl] at hc
    dsimp only at hc
    cases hgl : pl.frames.getLast? with
    | none =>
      rw [hgl] at hc
      simp at hc
    | some lastP =>
      rw [hgl] at hc
      cases hh : r.frames.head? with
      | none =>
        rw [hh] at hc
        simp at hc
      | some firstC =>
        rw [hh] at hc
        dsimp only at hc
        simp only [beq_iff_eq] at hc
        refine ⟨pl, rfl, ?_, ?_, lastP, firstC, hgl, rfl, hc⟩
        · intro hnil
          rw [hnil] at hgl
          exact absurd hgl (by simp)
        · intro hnil
          rw [hnil] at hh
          exact absurd hh (by simp)

/-- Witness for C3 on a concrete valid movie with a real division. -/
theorem c3_parent_check_witness :
    ∃ pr, ([(1, ⟨1, none, [2], [0]⟩), (2, ⟨2, some 1, [], [1]⟩)] : Lineage).lookup 1 =
        some pr ∧ pr.frames ≠ [] ∧ ([1] : List Int) ≠ [] ∧
      ∃ lastP firstC, pr.frames.getLast? = some lastP ∧
        ([1] : List Int).head? = some firstC ∧ firstC - lastP = 1 :=
  c3_parent_check [[[1]], [[2]]] [(1, ⟨1, none, [2], [0]⟩), (2, ⟨2, some 1, [], [1]⟩)]
    2 ⟨2, some 1, [], [1]⟩ 1 rfl (by decide) rfl (by decide)

/-- Counterexample to C3 as stated: a record declaring `parent = 0` (a
non-null integer) whose parent id `0` has no record in the lineage graph,
yet `is_valid_lineage` returns `true` — Python's `if parent:` treats the
integer `0` like `None` and skips the parent check entirely. -/
theorem c3_counterexample :
    is_valid_lineage [[[1]]] [(1, ⟨1, some 0, [], [0]⟩)] = .ok true ∧
    ([(1, ⟨1, some 0, [], [0]⟩)] : Lineage).lookup 0 = none ∧
    (⟨1, some 0, [], [0]⟩ : CellRecord).parent = some 0 :=
  ⟨rfl, rfl, rfl⟩

lemma optTraverse_mem {f : α → Option β} :
    ∀ {l : List α} {r : List β}, optTraverse f l = some r →
      ∀ b ∈ r, ∃ a ∈ l, f a = some b := by
  intro l
  induction l with
  | nil =>
    intro r h b hb
    unfold optTraverse at h
    cases h
    simp at hb
  | cons a as ih =>
    intro r h b hb
    unfold optTraverse at h
    cases hfa : f a with
    | none =>
      rw [hfa] at h
      simp at h
    | some b0 =>
      rw [hfa] at h
      cases hrest : optTraverse f as with
      | none =>
        rw [hrest] at h
        simp at h
      | some bs =>
        rw [hrest] at h
        dsimp only at h
        cases h
        rcases List.mem_cons.mp hb with rfl | hmem
        · exact ⟨a, List.mem_cons_self a as, hfa⟩
        · obtain ⟨a', ha', hfa'⟩ := ih hrest b hmem
          exact ⟨a', List.mem_cons_of_mem a ha', hfa'⟩

lemma optTraverse_isSome {f : α → Option β} :
    ∀ {l : List α}, (∀ a ∈ l, (f a).isSome = true) →
      (optTraverse f l).isSome = true := by
  intro l
  induction l with
  | nil => intro _; rfl
  | cons a as ih =>
    intro h
    unfold optTraverse
    cases hfa : f a with
    | none =>
      have := h a (List.mem_cons_self a as)
      rw [hfa] at this
      simp at this
    | some b0 =>
      cases hrest : optTraverse f as with
      | none =>
        have := ih (fun a' ha' => h a' (List.mem_cons_of_mem a ha'))
        rw [hrest] at this
        simp at this
      | some bs => rfl

lemma fwInt_inj {y : Volume} {px c : Int} (hc : c ∈ uniqueNonzero y) :
    fwInt y px = fwInt y c ↔ px = c := by
  constructor
  · intro h
    unfold fwInt fwNat at h
    rw [if_pos hc] at h
    by_cases hpx : px ∈ uniqueNonzero y
    · rw [if_pos hpx] at h
      have hn : (uniqueNonzero y).indexOf px + 1 = (uniqueNonzero y).indexOf c + 1 := by
        exact_mod_cast h
      exact (List.indexOf_inj hpx hc).mp (by omega)
    · rw [if_neg hpx] at h
      exfalso
      omega
  · rintro rfl
    rfl

lemma relabelVolume_length (y : Volume) : (relabelVolume y).length = y.length :=
  List.length_map _ _

lemma framesOf_relabel {y : Volume} {c : Int} (hc : c ∈ uniqueNonzero y) :
    framesOf (relabelVolume y) (fwInt y c) = framesOf y c := by
  unfold framesOf
  rw [relabelVolume_length]
  congr 1
  apply List.filter_congr
  intro f hf
  rw [List.mem_range] at hf
  have hgd : (relabelVolume y).getD f [] =
      (y.getD f []).map (fun row => row.map (fwInt y)) := by
    unfold relabelVolume
    rw [List.getD_eq_getElem?_getD, List.getD_eq_getElem?_getD, List.getElem?_map]
    rw [List.getElem?_eq_getElem hf]
    rfl
  rw [hgd, Bool.eq_iff_iff]
  unfold frameHas
  simp only [List.any_map, Function.comp_def, List.any_eq_true, beq_iff_eq]
  constructor
  · rintro ⟨row, hrow, px, hpx, he⟩
    exact ⟨row, hrow, px, hpx, (fwInt_inj hc).mp he⟩
  · rintro ⟨row, hrow, px, hpx, rfl⟩
    exact ⟨row, hrow, px, hpx, rfl⟩

lemma relabelEntry_isSome (y : Volume) {lin : Lineage} {c : Int}
    (h : (lin.lookup c).isSome = true) : (relabelEntry y lin c).isSome = true := by
  unfold relabelEntry
  cases hl : lin.lookup c with
  | none =>
    rw [hl] at h
    simp at h
  | some r => rfl

/-- Claim C4 (amended): `relabel_sequential_lineage` is deterministic (it is a
pure function of its arguments) and total whenever every non-zero id of the
label volume has a record in the lineage graph — under that precondition every
`lineage[cell_id]` lookup succeeds.  The precondition claimed originally (the
volume contains the ids referenced by the lineage) does not suffice, see the
counterexample. -/
theorem c4_total_under_coverage (y : Volume) (lin : Lineage)
    (h : ∀ c ∈ uniqueNonzero y, (lin.lookup c).isSome = true) :
    (relabel_sequential_lineage y lin).isSome = true := by
  unfold relabel_sequential_lineage
  cases hT : optTraverse (relabelEntry y lin) (uniqueNonzero y) with
  | none =>
    have hall : ∀ c ∈ uniqueNonzero y, (relabelEntry y lin c).isSome = true :=
      fun c hc => relabelEntry_isSome y (h c hc)
    have hs := optTraverse_isSome hall
    rw [hT] at hs
    simp at hs
  | some entries => rfl

/-- Witness for C4 on a one-cell movie with full lineage coverage. -/
theorem c4_total_under_coverage_witness :
    (relabel_sequential_lineage [[[1]]] [(1, ⟨1, none, [], [0]⟩)]).isSome = true :=
  c4_total_under_coverage [[[1]]] [(1, ⟨1, none, [], [0]⟩)] (by decide)

/-- Counterexample to C4 as stated: the volume `[[[5]]]` contains every id
referenced by the empty lineage graph (there are none), yet the relabeler
raises `KeyError` on `lineage[5]` — modelled by the `none` result — because
totality needs the converse inclusion, image ids covered by lineage records. -/
theorem c4_counterexample :
    (∀ c ∈ referenced_ids ([] : Lineage), c ∈ uniqueNonzero [[[5]]]) ∧
    relabel_sequential_lineage [[[5]]] [] = none :=
  ⟨by simp [referenced_ids], rfl⟩

/-- Claim C5: in every successful run of `relabel_sequential_lineage`, each
output record's `frames` equals exactly the increasing list of frame indices
in which the record's new id occurs as a pixel value of the returned relabeled
volume — the stored frames are recomputed, not copied. -/
theorem c5_frames_recomputed (y : Volume) (lin : Lineage) (y2 : Volume)
    (lin2 : Lineage) (h : relabel_sequential_lineage y lin = some (y2, lin2)) :
    ∀ nid r, (nid, r) ∈ lin2 → r.frames = framesOf y2 nid := by
  unfold relabel_sequential_lineage at h
  cases hT : optTraverse (relabelEntry y lin) (uniqueNonzero y) with
  | none =>
    rw [hT] at h
    simp at h
  | some entries =>
    rw [hT] at h
    simp only [Option.map_some'] at h
    injection h with hpair
    injection hpair with hy hl
    subst hy
    subst hl
    intro nid r hmem
    obtain ⟨cid, hcid, hfe⟩ := optTraverse_mem hT (nid, r) hmem
    unfold relabelEntry at hfe
    cases hlk : lin.lookup cid with
    | none =>
      rw [hlk] at hfe
      simp at hfe
    | some r0 =>
      rw [hlk] at hfe
      dsimp only at hfe
      injection hfe with hpair
      injection hpair with h1 h2
      subst h1
      subst h2
      exact (framesOf_relabel hcid).symm

/-- Witness for C5 on a two-frame movie relabeled from id 2 to id 1. -/
theorem c5_frames_recomputed_witness :
    (⟨1, none, [], [0, 1]⟩ : CellRecord).frames = framesOf [[[1]], [[1]]] 1 :=
  c5_frames_recomputed [[[2]], [[2]]] [(2, ⟨2, none, [], [0, 1]⟩)]
    [[[1]], [[1]]] [(1, ⟨1, none, [], [0, 1]⟩)] (by rfl) 1 ⟨1, none, [], [0, 1]⟩
    (by simp)

lemma strLT_irrefl : ∀ s, strLT s s = false := by
  intro s
  induction s with
  | nil => rfl
  | cons a as ih => simp [strLT, ih]

lemma strLT_trans : ∀ s t u, strLT s t = true → strLT t u = true → strLT s u = true := by
  intro s
  induction s with
  | nil =>
    intro t u h1 h2
    cases t with
    | nil => exact h2
    | cons b bs =>
      cases u with
      | nil => simp [strLT] at h2
      | cons c cs => rfl
  | cons a as ih =>
    intro t u h1 h2
    cases t with
    | nil => simp [strLT] at h1
    | cons b bs =>
      cases u with
      | nil => simp [strLT] at h2
      | cons c cs =>
        unfold strLT at h1 h2 ⊢
        by_cases hbc : b.toNat < c.toNat
        · rw [if_pos hbc] at h2
          by_cases hab : a.toNat < b.toNat
          · rw [if_pos (by omega : a.toNat < c.toNat)]
          · rw [if_neg hab] at h1
            by_cases hba : b.toNat < a.toNat
            · rw [if_pos hba] at h1
              simp at h1
            · rw [if_pos (by omega : a.toNat < c.toNat)]
        · rw [if_neg hbc] at h2
          by_cases hcb : c.toNat < b.toNat
          · rw [if_pos hcb] at h2
            simp at h2
          · rw [if_neg hcb] at h2
            by_cases hab : a.toNat < b.toNat
            · rw [if_pos (by omega : a.toNat < c.toNat)]
            · rw [if_neg hab] at h1
              by_cases hba : b.toNat < a.toNat
              · rw [if_pos hba] at h1
                simp at h1
              · rw [if_neg hba] at h1
                rw [if_neg (by omega : ¬ a.toNat < c.toNat),
                  if_neg (by omega : ¬ c.toNat < a.toNat)]
                exact ih bs cs h1 h2

lemma strLT_connex : ∀ s t, strLT s t = false → strLT t s = false → s = t := by
  intro s
  induction s with
  | nil =>
    intro t h1 _
    cases t with
    | nil => rfl
    | cons b bs => simp [strLT] at h1
  | cons a as ih =>
    intro t h1 h2
    cases t with
    | nil => simp [strLT] at h2
    | cons b bs =>
      unfold strLT at h1 h2
      by_cases hab : a.toNat < b.toNat
      · rw [if_pos hab] at h1
        simp at h1
      · rw [if_neg hab] at h1
        by_cases hba : b.toNat < a.toNat
        · rw [if_pos hba] at h2
          simp at h2
        · rw [if_neg hba] at h1
          have htn : a.toNat = b.toNat := by omega
          have ha : a = b := Char.ext (UInt32.ext htn)
          subst ha
          rw [if_neg hab, if_neg hab] at h2
          rw [ih bs h1 h2]

lemma bool_not_true {b : Bool} (h : ¬ b = true) : b = false := by
  cases b
  · rfl
  · exact absurd rfl h

lemma chunkLT_connex : ∀ a b : Chunk, chunkLT a b = false → chunkLT b a = false →
    a = b := by
  intro a b h1 h2
  cases a with
  | txt s =>
    cases b with
    | txt t => exact congrArg Chunk.txt (strLT_connex s t h1 h2)
    | num n => simp [chunkLT] at h1
  | num m =>
    cases b with
    | txt t => simp [chunkLT] at h2
    | num n =>
      simp only [chunkLT, decide_eq_false_iff_not, Int.not_lt] at h1 h2
      exact congrArg Chunk.num (by omega)

lemma chunkLT_trans : ∀ a b c : Chunk, chunkLT a b = true → chunkLT b c = true →
    chunkLT a c = true := by
  intro a b c h1 h2
  cases a with
  | txt s =>
    cases b with
    | txt t =>
      cases c with
      | txt u => exact strLT_trans s t u h1 h2
      | num n => rfl
    | num n =>
      cases c with
      | txt u => exact absurd h2 (by simp [chunkLT])
      | num n2 => rfl
  | num m =>
    cases b with
    | txt t => exact absurd h1 (by simp [chunkLT])
    | num n =>
      cases c with
      | txt u => exact absurd h2 (by simp [chunkLT])
      | num n2 =>
        simp only [chunkLT, decide_eq_true_eq] at h1 h2 ⊢
        omega

lemma keyLE_total : ∀ x y : List Chunk, keyLE x y = true ∨ keyLE y x = true := by
  intro x
  induction x with
  | nil => exact fun y => Or.inl rfl
  | cons a as ih =>
    intro y
    cases y with
    | nil => exact Or.inr rfl
    | cons b bs =>
      by_cases hab : chunkLT a b = true
      · left
        unfold keyLE
        rw [if_pos hab]
      · by_cases hba : chunkLT b a = true
        · right
          unfold keyLE
          rw [if_pos hba]
        · rcases ih bs with h | h
          · left
            unfold keyLE
            rw [if_neg hab, if_neg hba]
            exact h
          · right
            unfold keyLE
            rw [if_neg hba, if_neg hab]
            exact h

lemma keyLE_trans : ∀ x y z : List Chunk, keyLE x y = true → keyLE y z = true →
    keyLE x z = true := by
  intro x
  induction x with
  | nil => exact fun y z _ _ => rfl
  | cons a as ih =>
    intro y z h1 h2
    cases y with
    | nil => simp [keyLE] at h1
    | cons b bs =>
      cases z with
      | nil => simp [keyLE] at h2
      | cons c cs =>
        unfold keyLE at h1 h2 ⊢
        by_cases hab : chunkLT a b = true
        · rw [if_pos hab] at h1
          by_cases hbc : chunkLT b c = true
          · rw [if_pos (chunkLT_trans a b c hab hbc)]
          · rw [if_neg hbc] at h2
            by_cases hcb : chunkLT c b = true
            · rw [if_pos hcb] at h2
              simp at h2
            · have hbceq : b = c :=
                chunkLT_connex b c (bool_not_true hbc) (bool_not_true hcb)
              subst hbceq
              rw [if_pos hab]
        · rw [if_neg hab] at h1
          by_cases hba : chunkLT b a = true
          · rw [if_pos hba] at h1
            simp at h1
          · rw [if_neg hba] at h1
            have habeq : a = b :=
              chunkLT_connex a b (bool_not_true hab) (bool_not_true hba)
            subst habeq
            by_cases hac : chunkLT a c = true
            · rw [if_pos hac]
            · rw [if_neg hac] at h2 ⊢
              by_cases hca : chunkLT c a = true
              · rw [if_pos hca] at h2
                simp at h2
              · rw [if_neg hca] at h2 ⊢
                exact ih bs cs h1 h2

/-- Claim C8: the Batch Importer sorts directory entries by the natural
alphanumeric key, in which digit runs compare numerically: every duplicate-free
directory listing containing `movie1.trk`, `movie2.trk` and `movie10.trk` is
processed with those three files in exactly that relative order, not the
lexicographic order `movie1, movie10, movie2`. -/
theorem c8_natural_sort (l : List String) (hnd : l.Nodup)
    (h1 : "movie1.trk" ∈ l) (h2 : "movie2.trk" ∈ l) (h10 : "movie10.trk" ∈ l) :
    (trk_sorted_files l).filter
        (fun s => s == "movie1.trk" || s == "movie2.trk" || s == "movie10.trk") =
      ["movie1.trk", "movie2.trk", "movie10.trk"] := by
  haveI : IsTotal String fileOrder := ⟨fun _ _ => keyLE_total _ _⟩
  haveI : IsTrans String fileOrder := ⟨fun _ _ _ => keyLE_trans _ _ _⟩
  have hperm : (trk_sorted_files l).Perm l := List.perm_insertionSort _ _
  have hsorted : List.Sorted fileOrder (trk_sorted_files l) :=
    List.sorted_insertionSort fileOrder l
  have hfp := hperm.filter
    (fun s => s == "movie1.trk" || s == "movie2.trk" || s == "movie10.trk")
  have hlp : (l.filter
      (fun s => s == "movie1.trk" || s == "movie2.trk" || s == "movie10.trk")).Perm
      ["movie1.trk", "movie2.trk", "movie10.trk"] := by
    rw [List.perm_iff_count]
    intro a
    by_cases ha1 : a = "movie1.trk"
    · subst ha1
      rw [List.count_filter (by decide), List.count_eq_one_of_mem hnd h1]
      decide
    · by_cases ha2 : a = "movie2.trk"
      · subst ha2
        rw [List.count_filter (by decide), List.count_eq_one_of_mem hnd h2]
        decide
      · by_cases ha10 : a = "movie10.trk"
        · subst ha10
          rw [List.count_filter (by decide), List.count_eq_one_of_mem hnd h10]
          decide
        · rw [List.count_eq_zero.mpr, List.count_eq_zero.mpr]
          · simp [ha1, ha2, ha10]
          · intro hmem
            have hp := (List.mem_filter.mp hmem).2
            simp only [Bool.or_eq_true, beq_iff_eq] at hp
            tauto
  have hall := hfp.trans hlp
  have hps := List.Pairwise.filter
    (fun s => s == "movie1.trk" || s == "movie2.trk" || s == "movie10.trk") hsorted
  have hlen : ((trk_sorted_files l).filter
      (fun s => s == "movie1.trk" || s == "movie2.trk" || s == "movie10.trk")).length
      = 3 := hall.length_eq
  obtain ⟨x, y, z, hxyz⟩ := List.length_eq_three.mp hlen
  rw [hxyz] at hall hps ⊢
  have hnd3 : ([x, y, z] : List String).Nodup := hall.nodup_iff.mpr (by decide)
  have hx : x ∈ ["movie1.trk", "movie2.trk", "movie10.trk"] := hall.subset (by simp)
  have hy : y ∈ ["movie1.trk", "movie2.trk", "movie10.trk"] := hall.subset (by simp)
  have hz : z ∈ ["movie1.trk", "movie2.trk", "movie10.trk"] := hall.subset (by simp)
  simp only [List.mem_cons, List.not_mem_nil, or_false] at hx hy hz
  rcases hx with rfl | rfl | rfl <;> rcases hy with rfl | rfl | rfl <;>
    rcases hz with rfl | rfl | rfl <;>
    first
      | rfl
      | exact absurd hps (by decide)
      | exact absurd hnd3 (by decide)

/-- Witness for C8: a concrete listing in the wrong order is sorted into the
numeric order. -/
theorem c8_natural_sort_witness :
    (trk_sorted_files ["movie10.trk", "movie1.trk", "movie2.trk"]).filter
        (fun s => s == "movie1.trk" || s == "movie2.trk" || s == "movie10.trk") =
      ["movie1.trk", "movie2.trk", "movie10.trk"] :=
  c8_natural_sort ["movie10.trk", "movie1.trk", "movie2.trk"] (by decide)
    (by decide) (by decide) (by decide)

end DeepcellTracking

